import Mathlib

/-
  Shallow embedding of `src/transitions.js` (Prabhas PPT Maker — Slide
  Transitions Engine).

  The program post-processes a PPTX blob: it opens the blob as a ZIP archive
  (JSZip), finds the slide XML entries `ppt/slides/slideN.xml`, sorts them by
  the numeric ordinal `N`, and for every slide at sorted position `i >= 1`
  inserts a transition XML fragment (chosen cyclically from
  `TRANSITION_SEQUENCE`) before the closing `</p:sld>` tag, unless the slide
  text already contains `<p:transition`.  The whole body runs inside a single
  `try`/`catch`; on any error the original blob is returned unchanged.

  Modelling choices:
  - text is `List Char` (`Chars`); JS string primitives (`indexOf`,
    one-occurrence `replace`, regex tests used by the source) are embedded as
    executable functions on `List Char`;
  - a ZIP archive is an association list from entry path to entry content,
    in enumeration order (JSZip's `forEach` enumerates object keys in
    insertion order); an entry content of `none` is an entry whose
    read (`file(...).async('string')`) throws (e.g. corrupt entry data);
  - a blob is either a valid archive (`Blob.zipped`) or a byte string that
    `JSZip.loadAsync` rejects (`Blob.raw`);
  - the `async` steps are sequential in the source, so the embedding is a
    plain function; the single `try`/`catch` becomes an `Except` computation
    whose error is handled by returning the input blob.
-/

set_option maxRecDepth 40000

namespace AIPPT

abbrev Chars := List Char

/-- A ZIP package: entry path ↦ entry content, `none` = unreadable entry. -/
abbrev Package := List (Chars × Option Chars)

/-- A binary blob: either a parseable ZIP archive or raw bytes that
`JSZip.loadAsync` rejects. -/
inductive Blob where
  | raw (bytes : List Nat)
  | zipped (pkg : Package)
deriving DecidableEq

/-- `hasPre p s`: `p` is a prefix of `s` (used to embed substring search). -/
def hasPre : Chars → Chars → Bool
  | [], _ => true
  | _ :: _, [] => false
  | p :: ps, c :: cs => p == c && hasPre ps cs

/-- JS `s.indexOf(pat) !== -1`. -/
def containsSub (pat : Chars) : Chars → Bool
  | [] => pat.isEmpty
  | c :: cs => hasPre pat (c :: cs) || containsSub pat cs

/-- JS `s.replace(pat, repl)` with a string pattern: replaces only the first
occurrence, returns `s` unchanged when there is none. -/
def replaceFirstCL (pat repl : Chars) : Chars → Chars
  | [] => if pat.isEmpty then repl else []
  | c :: cs =>
      if hasPre pat (c :: cs) then repl ++ (c :: cs).drop pat.length
      else c :: replaceFirstCL pat repl cs

/-- Strip a literal leading pattern, returning the remainder on success. -/
def stripPre : Chars → Chars → Option Chars
  | [], s => some s
  | _ :: _, [] => none
  | p :: ps, c :: cs => if p == c then stripPre ps cs else none

def slideDirPre : Chars := "ppt/slides/slide".toList

def xmlExt : Chars := ".xml".toList

def slideTok : Chars := "slide".toList

def markTok : Chars := "<p:transition".toList

def closeTag : Chars := "</p:sld>".toList

/-- The filter regex `/^ppt\/slides\/slide\d+\.xml$/` of line 56: the path is
the literal prefix, one or more digits, then the literal `.xml`. -/
def isSlidePath (p : Chars) : Bool :=
  match stripPre slideDirPre p with
  | none => false
  | some rest =>
      !(rest.takeWhile Char.isDigit).isEmpty &&
        rest.dropWhile Char.isDigit == xmlExt

/-- JS `parseInt` on a digit string (accumulator form). -/
def digitsVal : Chars → Nat → Nat
  | [], acc => acc
  | c :: cs, acc => digitsVal cs (acc * 10 + (c.toNat - '0'.toNat))

/-- The unanchored regex match `s.match(/slide(\d+)/)` of lines 63-64: scan
for the first position where the literal `slide` is followed by at least one
digit, and return the value of the maximal digit run there. -/
def findSlideNum : Chars → Option Nat
  | [] => none
  | c :: cs =>
      if hasPre slideTok (c :: cs) then
        let ds := ((c :: cs).drop slideTok.length).takeWhile Char.isDigit
        if ds.isEmpty then findSlideNum cs else some (digitsVal ds 0)
      else findSlideNum cs

/-- The sort key of the comparator on lines 63-64.  The JS code dereferences
the match result without a null check; theorem `c10_total_lookups` shows the
match is never null on paths accepted by the slide filter, so the `getD`
default is never reached on the loop's inputs. -/
def ordinalOf (p : Chars) : Nat := (findSlideNum p).getD 0

/-- One step of a stable ascending insertion sort by `ordinalOf`: the element
goes after every element with a key `<=` its own, as in JS's stable
`Array.prototype.sort` with comparator `numA - numB`. -/
def insertBy (x : Chars) : List Chars → List Chars
  | [] => [x]
  | y :: ys => if ordinalOf x < ordinalOf y then x :: y :: ys else y :: insertBy x ys

/-- `slideFiles.sort(...)` of lines 62-66: stable sort, ascending by ordinal. -/
def sortSlides (l : List Chars) : List Chars :=
  l.foldl (fun acc x => insertBy x acc) []

def zipPaths (zip : Package) : List Chars := zip.map Prod.fst

/-- `zip.file(path).async('string')`: `none` when the entry is missing or its
data cannot be read (both throw in the source). -/
def readText : Package → Chars → Option Chars
  | [], _ => none
  | (q, w) :: rest, p => if q = p then w else readText rest p

/-- `zip.file(path, content)`: overwrite in place (object key keeps its
position); a fresh path would be appended. -/
def writeEntry : Package → Chars → Chars → Package
  | [], p, v => [(p, some v)]
  | (q, w) :: rest, p, v =>
      if q = p then (q, some v) :: rest else (q, w) :: writeEntry rest p v

def morphXml : Chars :=
  ("<mc:AlternateContent xmlns:mc=\"http://schemas.openxmlformats.org/markup-compatibility/2006\"><mc:Choice Requires=\"p159\"><p:transition spd=\"slow\" xmlns:p159=\"http://schemas.microsoft.com/office/powerpoint/2015/09/main\"><p159:morph option=\"byObject\"/></p:transition></mc:Choice><mc:Fallback><p:transition spd=\"slow\"><p:fade/></p:transition></mc:Fallback></mc:AlternateContent>").toList

def pushXml : Chars :=
  ("<p:transition spd=\"med\"><p:push dir=\"l\"/></p:transition>").toList

def coverXml : Chars :=
  ("<p:transition spd=\"med\"><p:cover dir=\"l\"/></p:transition>").toList

def fadeXml : Chars :=
  ("<p:transition spd=\"slow\"><p:fade/></p:transition>").toList

def wipeXml : Chars :=
  ("<p:transition spd=\"med\"><p:wipe dir=\"d\"/></p:transition>").toList

/-- The `TRANSITIONS` catalog object of lines 19-34. -/
def TRANSITIONS : List (Chars × Chars) :=
  [("morph".toList, morphXml), ("push".toList, pushXml),
   ("cover".toList, coverXml), ("fade".toList, fadeXml),
   ("wipe".toList, wipeXml)]

def lookupIn : List (Chars × Chars) → Chars → Option Chars
  | [], _ => none
  | (k, v) :: rest, q => if k = q then some v else lookupIn rest q

/-- JS property lookup `TRANSITIONS[transType]`. -/
def lookupTrans (q : Chars) : Option Chars := lookupIn TRANSITIONS q

/-- Line 37. -/
def TRANSITION_SEQUENCE : List Chars := ["morph".toList, "push".toList]

/-- Lines 73-74: `TRANSITIONS[TRANSITION_SEQUENCE[i % TRANSITION_SEQUENCE.length]]`.
A JS out-of-range index or missing key yields `undefined`, which string
concatenation would render as `"undefined"`; theorem `c10_total_lookups`
shows both lookups succeed for every `i`. -/
def transXmlAt (i : Nat) : Chars :=
  (lookupTrans (TRANSITION_SEQUENCE.getD (i % TRANSITION_SEQUENCE.length) [])).getD
    "undefined".toList

/-- Pair each element with its index, starting at `k`. -/
def enumFrom : Nat → List Chars → List (Nat × Chars)
  | _, [] => []
  | k, x :: xs => (k, x) :: enumFrom (k + 1) xs

/-- Lines 55-66: filter the enumerated entry paths by the slide regex, then
sort by numeric ordinal. -/
def slideFilesOf (zip : Package) : List Chars :=
  sortSlides ((zipPaths zip).filter isSlidePath)

/-- The `for` loop of lines 71-82, running over `(i, slideFiles[i])` for
`i = 1 .. slideFiles.length - 1`.  A failing entry read throws, which the
source only catches at whole-operation level, so it surfaces here as
`Except.error`. -/
def injectLoop : Package → List (Nat × Chars) → Except Unit Package
  | zip, [] => .ok zip
  | zip, (i, path) :: rest =>
      match readText zip path with
      | none => .error ()
      | some slideXml =>
          if containsSub markTok slideXml then injectLoop zip rest
          else injectLoop
            (writeEntry zip path
              (replaceFirstCL closeTag (transXmlAt i ++ closeTag) slideXml))
            rest

/-- `JSZip.loadAsync` (line 51): fails on a blob that is not a ZIP archive. -/
def loadAsync : Blob → Except Unit Package
  | .raw _ => .error ()
  | .zipped pkg => .ok pkg

/-- `applyTransitions` (lines 44-100): load, locate and sort slides, inject,
re-serialize; the surrounding `try`/`catch` returns the original blob on any
error. -/
def applyTransitions (pptxBlob : Blob) : Blob :=
  match loadAsync pptxBlob with
  | .error _ => pptxBlob
  | .ok zip =>
      match injectLoop zip ((enumFrom 0 (slideFilesOf zip)).drop 1) with
      | .error _ => pptxBlob
      | .ok z2 => .zipped z2

/-- View of the entries carried by a blob (used to state properties of the
output package). -/
def blobEntries : Blob → Package
  | .raw _ => []
  | .zipped pkg => pkg

/-- Insert a transition fragment before the closing tag, as line 78 does. -/
def insertClose (frag s : Chars) : Chars := replaceFirstCL closeTag (frag ++ closeTag) s

/-- Slide text on which the injection step is a no-op for the package: it
already carries the transition marker, or it has no closing tag (so the
`replace` of line 78 returns the text unchanged). -/
def GoodSlide (t : Chars) : Prop :=
  containsSub markTok t = true ∨ containsSub closeTag t = false

/- Concrete test data for scenario claims, counterexamples and witnesses. -/

def slidePathN (n : Nat) : Chars :=
  "ppt/slides/slide".toList ++ (Nat.toDigits 10 n) ++ ".xml".toList

def s1Xml : Chars := ("<p:sld><p:cSld n=\"one\"/></p:sld>").toList

def s2Xml : Chars := ("<p:sld><p:cSld n=\"two\"/></p:sld>").toList

def s3Xml : Chars := ("<p:sld><p:cSld n=\"three\"/></p:sld>").toList

/-- A well-formed three-slide deck, plus a non-slide entry. -/
def deck3 : Package :=
  [("[Content_Types].xml".toList, some ("<Types/>").toList),
   (slidePathN 1, some s1Xml),
   (slidePathN 2, some s2Xml),
   (slidePathN 3, some s3Xml)]

/-- Slide text with no closing root tag. -/
def noCloseXml : Chars := ("<p:sld><p:cSld n=\"two\"/>").toList

/-- A three-slide deck whose second slide has no closing `</p:sld>` tag. -/
def noCloseDeck : Package :=
  [(slidePathN 1, some s1Xml),
   (slidePathN 2, some noCloseXml),
   (slidePathN 3, some s3Xml)]

/-- A three-slide deck whose second slide entry cannot be read. -/
def badDeck : Package :=
  [(slidePathN 1, some s1Xml),
   (slidePathN 2, none),
   (slidePathN 3, some s3Xml)]

/-- Eleven slide paths listed in lexicographic order of their names. -/
def lexPaths : List Chars :=
  [slidePathN 1, slidePathN 10, slidePathN 11, slidePathN 2, slidePathN 3,
   slidePathN 4, slidePathN 5, slidePathN 6, slidePathN 7, slidePathN 8,
   slidePathN 9]

/-- An eleven-slide deck whose entries appear in lexicographic path order. -/
def deck11 : Package := lexPaths.map (fun p => (p, some s1Xml))

/-! ## Theorems -/

/-! ### Substring and replacement lemmas -/

theorem hasPre_append {p s : Chars} (h : hasPre p s = true) (u : Chars) :
    hasPre p (s ++ u) = true := by
  induction p generalizing s with
  | nil => simp [hasPre]
  | cons a ps ih =>
      cases s with
      | nil => simp [hasPre] at h
      | cons c cs =>
          simp only [hasPre, List.cons_append, Bool.and_eq_true] at h ⊢
          exact ⟨h.1, ih h.2⟩

theorem hasPre_self_append (p u : Chars) : hasPre p (p ++ u) = true := by
  induction p with
  | nil => simp [hasPre]
  | cons a ps ih => simp [hasPre, ih]

theorem hasPre_drop {p s : Chars} (h : hasPre p s = true) :
    s = p ++ s.drop p.length := by
  induction p generalizing s with
  | nil => simp
  | cons a ps ih =>
      cases s with
      | nil => simp [hasPre] at h
      | cons c cs =>
          simp only [hasPre, Bool.and_eq_true, beq_iff_eq] at h
          simpa [h.1] using congrArg (fun l => c :: l) (ih h.2)

theorem containsSub_append_right {p s : Chars} (h : containsSub p s = true)
    (u : Chars) : containsSub p (s ++ u) = true := by
  induction s with
  | nil =>
      simp only [containsSub, List.isEmpty_iff] at h
      subst h
      cases u with
      | nil => simp [containsSub]
      | cons c cs => simp [containsSub, hasPre]
  | cons c cs ih =>
      simp only [containsSub, List.cons_append, Bool.or_eq_true] at h ⊢
      rcases h with h | h
      · exact Or.inl (hasPre_append h u)
      · exact Or.inr (ih h)

theorem containsSub_append_left {p s : Chars} (h : containsSub p s = true)
    (u : Chars) : containsSub p (u ++ s) = true := by
  induction u with
  | nil => simpa using h
  | cons c cs ih =>
      simp only [containsSub, List.cons_append, Bool.or_eq_true]
      exact Or.inr ih

theorem replaceFirstCL_of_not_contains {p t : Chars} (r : Chars)
    (h : containsSub p t = false) : replaceFirstCL p r t = t := by
  induction t with
  | nil =>
      simp only [containsSub] at h
      simp [replaceFirstCL, h]
  | cons c cs ih =>
      simp only [containsSub, Bool.or_eq_false_iff] at h
      simp [replaceFirstCL, h.1, ih h.2]

theorem replaceFirstCL_decomp {p t : Chars} (r : Chars)
    (h : containsSub p t = true) :
    ∃ a b, t = a ++ p ++ b ∧ replaceFirstCL p r t = a ++ r ++ b := by
  induction t with
  | nil =>
      simp only [containsSub, List.isEmpty_iff] at h
      exact ⟨[], [], by simp [h], by simp [replaceFirstCL, h]⟩
  | cons c cs ih =>
      cases hp : hasPre p (c :: cs) with
      | true =>
          refine ⟨[], (c :: cs).drop p.length, ?_, ?_⟩
          · simpa using hasPre_drop hp
          · simp [replaceFirstCL, hp]
      | false =>
          simp only [containsSub, hp, Bool.false_or] at h
          obtain ⟨a, b, hcs, hrep⟩ := ih h
          exact ⟨c :: a, b, by simp [hcs], by simp [replaceFirstCL, hp, hrep]⟩

/-! ### Package access lemmas -/

theorem readText_writeEntry_self (zip : Package) (p v : Chars) :
    readText (writeEntry zip p v) p = some v := by
  induction zip with
  | nil => simp [writeEntry, readText]
  | cons e rest ih =>
      obtain ⟨q, w⟩ := e
      by_cases hqp : q = p
      · simp [writeEntry, hqp, readText]
      · simp [writeEntry, hqp, readText, ih]

theorem readText_writeEntry_ne {q p : Chars} (zip : Package) (v : Chars)
    (hne : q ≠ p) : readText (writeEntry zip q v) p = readText zip p := by
  induction zip with
  | nil => simp [writeEntry, readText, hne]
  | cons e rest ih =>
      obtain ⟨k, w⟩ := e
      by_cases hkq : k = q
      · subst hkq
        simp [writeEntry, readText, hne]
      · simp [writeEntry, hkq, readText, ih]

theorem writeEntry_readText_self {zip : Package} {p t : Chars}
    (h : readText zip p = some t) : writeEntry zip p t = zip := by
  induction zip with
  | nil => simp [readText] at h
  | cons e rest ih =>
      obtain ⟨q, w⟩ := e
      by_cases hqp : q = p
      · subst hqp
        have hw : w = some t := by simpa [readText] using h
        simp [writeEntry, hw]
      · simp only [readText, if_neg hqp] at h
        simp [writeEntry, hqp, ih h]

theorem zipPaths_writeEntry {zip : Package} {p : Chars} (v : Chars)
    (h : p ∈ zipPaths zip) : zipPaths (writeEntry zip p v) = zipPaths zip := by
  induction zip with
  | nil => simp [zipPaths] at h
  | cons e rest ih =>
      obtain ⟨q, w⟩ := e
      by_cases hqp : q = p
      · simp [writeEntry, hqp, zipPaths]
      · simp only [zipPaths, List.map_cons, List.mem_cons] at h
        rcases h with h | h
        · exact absurd h.symm hqp
        · have hrec : zipPaths (writeEntry rest p v) = zipPaths rest := ih h
          simp only [zipPaths] at hrec
          simp only [writeEntry, if_neg hqp, zipPaths, List.map_cons, hrec]

/-! ### Injection loop lemmas -/

theorem injectLoop_append (zip : Package) (l1 l2 : List (Nat × Chars)) :
    injectLoop zip (l1 ++ l2) =
      match injectLoop zip l1 with
      | .error e => .error e
      | .ok z => injectLoop z l2 := by
  induction l1 generalizing zip with
  | nil => simp [injectLoop]
  | cons x rest ih =>
      obtain ⟨i, path⟩ := x
      cases hr : readText zip path with
      | none => simp [injectLoop, hr]
      | some slideXml =>
          cases hm : containsSub markTok slideXml with
          | true => simpa [injectLoop, hr, hm] using ih zip
          | false => simpa [injectLoop, hr, hm] using ih _

theorem injectLoop_paths {zip z2 : Package} {lst : List (Nat × Chars)}
    (h : ∀ x ∈ lst, x.2 ∈ zipPaths zip)
    (hok : injectLoop zip lst = .ok z2) : zipPaths z2 = zipPaths zip := by
  induction lst generalizing zip with
  | nil =>
      simp only [injectLoop, Except.ok.injEq] at hok
      rw [hok]
  | cons x rest ih =>
      obtain ⟨i, path⟩ := x
      cases hr : readText zip path with
      | none => simp [injectLoop, hr] at hok
      | some slideXml =>
          cases hm : containsSub markTok slideXml with
          | true =>
              simp only [injectLoop, hr, hm] at hok
              exact ih (fun y hy => h y (List.mem_cons_of_mem _ hy)) hok
          | false =>
              simp only [injectLoop, hr, hm] at hok
              have hmem : path ∈ zipPaths zip := h (i, path) (List.mem_cons_self _ _)
              have hwp := zipPaths_writeEntry
                (replaceFirstCL closeTag (transXmlAt i ++ closeTag) slideXml) hmem
              have := ih (fun y hy => by
                rw [hwp]; exact h y (List.mem_cons_of_mem _ hy)) hok
              rw [this, hwp]

theorem injectLoop_preserve_ne {zip z2 : Package} {lst : List (Nat × Chars)}
    {p : Chars} (h : ∀ x ∈ lst, x.2 ≠ p)
    (hok : injectLoop zip lst = .ok z2) : readText z2 p = readText zip p := by
  induction lst generalizing zip with
  | nil =>
      simp only [injectLoop, Except.ok.injEq] at hok
      rw [hok]
  | cons x rest ih =>
      obtain ⟨i, path⟩ := x
      cases hr : readText zip path with
      | none => simp [injectLoop, hr] at hok
      | some slideXml =>
          cases hm : containsSub markTok slideXml with
          | true =>
              simp only [injectLoop, hr, hm] at hok
              exact ih (fun y hy => h y (List.mem_cons_of_mem _ hy)) hok
          | false =>
              simp only [injectLoop, hr, hm] at hok
              have hne : path ≠ p := h (i, path) (List.mem_cons_self _ _)
              rw [ih (fun y hy => h y (List.mem_cons_of_mem _ hy)) hok,
                readText_writeEntry_ne _ _ hne]

theorem injectLoop_preserve_good {zip z2 : Package} {lst : List (Nat × Chars)}
    {p t : Chars} (hread : readText zip p = some t) (hg : GoodSlide t)
    (hok : injectLoop zip lst = .ok z2) : readText z2 p = some t := by
  induction lst generalizing zip with
  | nil =>
      simp only [injectLoop, Except.ok.injEq] at hok
      rw [hok] at hread
      exact hread
  | cons x rest ih =>
      obtain ⟨i, path⟩ := x
      cases hr : readText zip path with
      | none => simp [injectLoop, hr] at hok
      | some slideXml =>
          cases hm : containsSub markTok slideXml with
          | true =>
              simp only [injectLoop, hr, hm] at hok
              exact ih hread hok
          | false =>
              simp only [injectLoop, hr, hm] at hok
              by_cases hqp : path = p
              · subst hqp
                rw [hread] at hr
                injection hr with hr
                subst hr
                rcases hg with hg | hg
                · rw [hg] at hm
                  cases hm
                · rw [replaceFirstCL_of_not_contains _ hg,
                    writeEntry_readText_self hread] at hok
                  exact ih hread hok
              · have : readText
                    (writeEntry zip path
                      (replaceFirstCL closeTag (transXmlAt i ++ closeTag) slideXml)) p =
                    some t := by
                  rw [readText_writeEntry_ne _ _ hqp]
                  exact hread
                exact ih this hok

theorem transXmlAt_contains_mark (i : Nat) :
    containsSub markTok (transXmlAt i) = true := by
  rcases Nat.mod_two_eq_zero_or_one i with h | h
  · unfold transXmlAt
    rw [show TRANSITION_SEQUENCE.length = 2 from rfl, h]
    decide
  · unfold transXmlAt
    rw [show TRANSITION_SEQUENCE.length = 2 from rfl, h]
    decide

/-- The slide text produced by the injection of line 78 is inert for later
runs: it either gained the marker (the fragment carries `<p:transition`) or,
when no closing tag was found, it is unchanged. -/
theorem goodSlide_replace (i : Nat) (x : Chars) :
    GoodSlide (replaceFirstCL closeTag (transXmlAt i ++ closeTag) x) := by
  cases hc : containsSub closeTag x with
  | true =>
      obtain ⟨a, b, _, hrep⟩ := replaceFirstCL_decomp (transXmlAt i ++ closeTag) hc
      rw [hrep]
      exact Or.inl (containsSub_append_right
        (containsSub_append_left
          (containsSub_append_right (transXmlAt_contains_mark i) closeTag) a) b)
  | false =>
      rw [replaceFirstCL_of_not_contains _ hc]
      exact Or.inr hc

theorem injectLoop_establish_good {zip z2 : Package} {lst : List (Nat × Chars)}
    (hok : injectLoop zip lst = .ok z2) :
    ∀ x ∈ lst, ∃ t, readText z2 x.2 = some t ∧ GoodSlide t := by
  induction lst generalizing zip with
  | nil => intro x hx; cases hx
  | cons y rest ih =>
      obtain ⟨i, path⟩ := y
      intro x hx
      cases hr : readText zip path with
      | none => simp [injectLoop, hr] at hok
      | some slideXml =>
          cases hm : containsSub markTok slideXml with
          | true =>
              simp only [injectLoop, hr, hm] at hok
              rcases List.mem_cons.1 hx with hx | hx
              · subst hx
                exact ⟨slideXml, injectLoop_preserve_good hr (Or.inl hm) hok,
                  Or.inl hm⟩
              · exact ih hok x hx
          | false =>
              simp only [injectLoop, hr, hm] at hok
              have hwr := readText_writeEntry_self zip path
                (replaceFirstCL closeTag (transXmlAt i ++ closeTag) slideXml)
              have hgood := goodSlide_replace i slideXml
              rcases List.mem_cons.1 hx with hx | hx
              · subst hx
                exact ⟨_, injectLoop_preserve_good hwr hgood hok, hgood⟩
              · exact ih hok x hx

theorem injectLoop_fixpoint {zip : Package} {lst : List (Nat × Chars)}
    (hall : ∀ x ∈ lst, ∃ t, readText zip x.2 = some t ∧ GoodSlide t) :
    injectLoop zip lst = .ok zip := by
  induction lst with
  | nil => rfl
  | cons y rest ih =>
      obtain ⟨i, path⟩ := y
      obtain ⟨t, hr, hg⟩ := hall (i, path) (List.mem_cons_self _ _)
      cases hm : containsSub markTok t with
      | true =>
          simp only [injectLoop, hr, hm]
          exact ih (fun x hx => hall x (List.mem_cons_of_mem _ hx))
      | false =>
          rcases hg with hg | hg
          · rw [hg] at hm; cases hm
          · simp only [injectLoop, hr, hm]
            rw [replaceFirstCL_of_not_contains _ hg, writeEntry_readText_self hr]
            exact ih (fun x hx => hall x (List.mem_cons_of_mem _ hx))

/-! ### Sorting and enumeration lemmas -/

theorem insertBy_perm (x : Chars) (l : List Chars) :
    List.Perm (insertBy x l) (x :: l) := by
  induction l with
  | nil => exact List.Perm.refl _
  | cons y ys ih =>
      by_cases h : ordinalOf x < ordinalOf y
      · simp [insertBy, h]
      · simp only [insertBy, if_neg h]
        exact (ih.cons y).trans (List.Perm.swap x y ys)

theorem sortSlides_perm (l : List Chars) : List.Perm (sortSlides l) l := by
  have key : ∀ (l acc : List Chars),
      List.Perm (l.foldl (fun acc x => insertBy x acc) acc) (acc ++ l) := by
    intro l
    induction l with
    | nil => intro acc; simp
    | cons x xs ih =>
        intro acc
        have h1 : List.Perm ((x :: xs).foldl (fun acc x => insertBy x acc) acc)
            ((insertBy x acc) ++ xs) := by simpa using ih (insertBy x acc)
        have h2 := (insertBy_perm x acc).append_right xs
        have h3 : List.Perm ((x :: acc) ++ xs) (acc ++ x :: xs) := by
          rw [List.cons_append]
          exact List.perm_middle.symm
        exact h1.trans (h2.trans h3)
  simpa using key l []

theorem mem_slideFilesOf {zip : Package} {p : Chars}
    (h : p ∈ slideFilesOf zip) : isSlidePath p = true ∧ p ∈ zipPaths zip := by
  have := (sortSlides_perm ((zipPaths zip).filter isSlidePath)).mem_iff.1 h
  have := List.mem_filter.1 this
  exact ⟨this.2, this.1⟩

theorem nodup_slideFilesOf {zip : Package} (h : (zipPaths zip).Nodup) :
    (slideFilesOf zip).Nodup :=
  ((sortSlides_perm _).symm.nodup_iff).1 (h.filter _)

theorem enumFrom_map_snd (k : Nat) (l : List Chars) :
    (enumFrom k l).map Prod.snd = l := by
  induction l generalizing k with
  | nil => rfl
  | cons x xs ih => simp [enumFrom, ih]

theorem enumFrom_append (k : Nat) (a b : List Chars) :
    enumFrom k (a ++ b) = enumFrom k a ++ enumFrom (k + a.length) b := by
  induction a generalizing k with
  | nil => simp [enumFrom]
  | cons x xs ih =>
      simp only [List.cons_append, enumFrom, List.append_eq, ih (k + 1),
        List.length_cons]
      have harith : k + 1 + xs.length = k + (xs.length + 1) := by omega
      rw [harith]

theorem mem_enumFrom_snd {k : Nat} {l : List Chars} {x : Nat × Chars}
    (h : x ∈ enumFrom k l) : x.2 ∈ l := by
  have := List.mem_map_of_mem Prod.snd h
  rwa [enumFrom_map_snd] at this

/-- C1, counterexample: in `badDeck` the second slide's entry read fails.  The
claim says the error is caught per-slide, slide 2 is skipped, and processing
continues to slide 3 (so the run must not fall back to the original input).
In fact the sole `catch` is whole-operation: the run returns the original
blob unchanged, and slide 3 never receives its transition. -/
theorem c1_counterexample :
    applyTransitions (.zipped badDeck) = .zipped badDeck ∧
    readText (blobEntries (applyTransitions (.zipped badDeck))) (slidePathN 3) =
      some s3Xml ∧
    containsSub markTok s3Xml = false := by decide

/-- C1, amended: an exception raised while processing an individual slide is
caught (the operation never throws), but by the single whole-operation
handler: the run aborts and returns the original input blob unchanged instead
of skipping the slide and continuing. -/
theorem c1_amended_abort (pkg : Package)
    (h : injectLoop pkg ((enumFrom 0 (slideFilesOf pkg)).drop 1) = .error ()) :
    applyTransitions (.zipped pkg) = .zipped pkg := by
  rw [List.drop_one] at h
  simp [applyTransitions, loadAsync, h]

/-- C1, witness for the amended theorem at `badDeck`. -/
theorem c1_amended_abort_witness :
    applyTransitions (.zipped badDeck) = .zipped badDeck :=
  c1_amended_abort badDeck (by rfl)

/-- C2, counterexample: on the three-slide deck, slide 2 does not receive the
rich effect (morph) and slide 3 does not receive the safe effect (push) —
the sequence index `i % 2` is `1` at position 1, so the assignments are the
other way round. -/
theorem c2_counterexample :
    readText (blobEntries (applyTransitions (.zipped deck3))) (slidePathN 2) ≠
      some (insertClose morphXml s2Xml) ∧
    readText (blobEntries (applyTransitions (.zipped deck3))) (slidePathN 3) ≠
      some (insertClose pushXml s3Xml) := by decide

/-- C2, amended: for the three-slide deck with the default sequence
`[morph, push]`, slide 1 is unmodified, slide 2 receives the safe effect
(push), and slide 3 receives the rich effect (morph, whose fragment carries
the fallback). -/
theorem c2_amended_scenario :
    applyTransitions (.zipped deck3) =
      .zipped [("[Content_Types].xml".toList, some ("<Types/>").toList),
               (slidePathN 1, some s1Xml),
               (slidePathN 2, some (insertClose pushXml s2Xml)),
               (slidePathN 3, some (insertClose morphXml s3Xml))] ∧
    transXmlAt 1 = pushXml ∧ transXmlAt 2 = morphXml ∧
    containsSub ("<mc:Fallback>").toList morphXml = true := by decide

/-- C4: when the input blob cannot be parsed as a ZIP archive, the operation
returns exactly the original blob (so it neither throws uncaught — the
embedding is a total function — nor returns an empty or corrupt blob). -/
theorem c4_fail_safe (b : Blob) (e : Unit) (h : loadAsync b = .error e) :
    applyTransitions b = b := by
  cases b with
  | raw bs => rfl
  | zipped pkg => simp [loadAsync] at h

/-- C4, witness at a concrete non-archive blob. -/
theorem c4_fail_safe_witness :
    applyTransitions (.raw [80, 75, 9, 9]) = .raw [80, 75, 9, 9] :=
  c4_fail_safe (.raw [80, 75, 9, 9]) () rfl

/-- C7: for the eleven-slide deck whose entries are enumerated in
lexicographic path order, the located slide list — the processing order of
the injection loop — is the numeric order 1, 2, ..., 10, 11, not the
lexicographic order. -/
theorem c7_numeric_order :
    slideFilesOf deck11 =
      [slidePathN 1, slidePathN 2, slidePathN 3, slidePathN 4, slidePathN 5,
       slidePathN 6, slidePathN 7, slidePathN 8, slidePathN 9, slidePathN 10,
       slidePathN 11] ∧
    slideFilesOf deck11 ≠ lexPaths := by decide

/-! ### Whole-operation helpers -/

theorem applyTransitions_zipped (pkg : Package) :
    applyTransitions (.zipped pkg) =
      match injectLoop pkg ((enumFrom 0 (slideFilesOf pkg)).drop 1) with
      | .error _ => .zipped pkg
      | .ok z2 => .zipped z2 := rfl

theorem mem_dropped_enum_slide {pkg : Package} {x : Nat × Chars}
    (hx : x ∈ (enumFrom 0 (slideFilesOf pkg)).drop 1) :
    isSlidePath x.2 = true ∧ x.2 ∈ zipPaths pkg :=
  mem_slideFilesOf (mem_enumFrom_snd (List.mem_of_mem_drop hx))

/-- C3: the whole operation is idempotent — running the injector a second
time on its own output returns that output unchanged, because every slide it
touched now carries the `<p:transition` marker (or had no closing tag and was
left as it was). -/
theorem c3_idempotent (b : Blob) :
    applyTransitions (applyTransitions b) = applyTransitions b := by
  cases b with
  | raw bs => rfl
  | zipped pkg =>
      rw [applyTransitions_zipped]
      cases hloop : injectLoop pkg ((enumFrom 0 (slideFilesOf pkg)).drop 1) with
      | error e => rw [applyTransitions_zipped, hloop]
      | ok z2 =>
          have hpaths : zipPaths z2 = zipPaths pkg :=
            injectLoop_paths (fun x hx => (mem_dropped_enum_slide hx).2) hloop
          have hfiles : slideFilesOf z2 = slideFilesOf pkg := by
            unfold slideFilesOf
            rw [hpaths]
          have hfix : injectLoop z2 ((enumFrom 0 (slideFilesOf z2)).drop 1) =
              .ok z2 := by
            rw [hfiles]
            exact injectLoop_fixpoint (injectLoop_establish_good hloop)
          rw [applyTransitions_zipped, hfix]

/-- C6: the first slide in ordinal order is never modified — its text in the
output package is the text it had in the input package (the loop of line 71
starts at index 1, and on whole-operation failure the input is returned). -/
theorem c6_first_slide_unmodified (pkg : Package) (hnd : (zipPaths pkg).Nodup)
    (p : Chars) (fs' : List Chars) (hfs : slideFilesOf pkg = p :: fs') :
    readText (blobEntries (applyTransitions (.zipped pkg))) p =
      readText pkg p := by
  have hnodup : (slideFilesOf pkg).Nodup := nodup_slideFilesOf hnd
  rw [hfs] at hnodup
  rw [applyTransitions_zipped, hfs]
  have hdrop : (enumFrom 0 (p :: fs')).drop 1 = enumFrom 1 fs' := rfl
  rw [hdrop]
  cases hloop : injectLoop pkg (enumFrom 1 fs') with
  | error e => rfl
  | ok z2 =>
      have hne : ∀ x ∈ enumFrom 1 fs', x.2 ≠ p := by
        intro x hx heq
        have hmem : x.2 ∈ fs' := mem_enumFrom_snd hx
        rw [heq] at hmem
        exact (List.nodup_cons.1 hnodup).1 hmem
      exact injectLoop_preserve_ne hne hloop

/-- C6, witness at the three-slide deck. -/
theorem c6_first_slide_unmodified_witness :
    readText (blobEntries (applyTransitions (.zipped deck3))) (slidePathN 1) =
      readText deck3 (slidePathN 1) :=
  c6_first_slide_unmodified deck3 (by decide) (slidePathN 1)
    [slidePathN 2, slidePathN 3] (by decide)

/-- C8: every entry present before processing is present after, at the same
position (the path list of the package is unchanged), and every entry whose
path does not match the slide naming convention keeps its exact content. -/
theorem c8_non_slide_entries_untouched (pkg : Package) :
    zipPaths (blobEntries (applyTransitions (.zipped pkg))) = zipPaths pkg ∧
    ∀ p : Chars, isSlidePath p = false →
      readText (blobEntries (applyTransitions (.zipped pkg))) p =
        readText pkg p := by
  rw [applyTransitions_zipped]
  cases hloop : injectLoop pkg ((enumFrom 0 (slideFilesOf pkg)).drop 1) with
  | error e => exact ⟨rfl, fun p _ => rfl⟩
  | ok z2 =>
      refine ⟨injectLoop_paths (fun x hx => (mem_dropped_enum_slide hx).2) hloop,
        fun p hp => ?_⟩
      have hne : ∀ x ∈ (enumFrom 0 (slideFilesOf pkg)).drop 1, x.2 ≠ p := by
        intro x hx heq
        have := (mem_dropped_enum_slide hx).1
        rw [heq, hp] at this
        cases this
      exact injectLoop_preserve_ne hne hloop

/-- C8, witness at the three-slide deck and its non-slide entry. -/
theorem c8_non_slide_entries_untouched_witness :
    zipPaths (blobEntries (applyTransitions (.zipped deck3))) = zipPaths deck3 ∧
    readText (blobEntries (applyTransitions (.zipped deck3)))
        ("[Content_Types].xml".toList) =
      readText deck3 ("[Content_Types].xml".toList) :=
  ⟨(c8_non_slide_entries_untouched deck3).1,
   (c8_non_slide_entries_untouched deck3).2 ("[Content_Types].xml".toList)
     (by decide)⟩

/-- C9: a slide whose text has no closing `</p:sld>` marker is left with its
content unmodified (the `replace` is a no-op and the same text is written
back), the condition is not an error, and the loop behaves on the remaining
slides exactly as if this slide had not been there. -/
theorem c9_no_close_tag_skipped (zip : Package) (i : Nat) (p : Chars)
    (rest : List (Nat × Chars)) (t : Chars)
    (hread : readText zip p = some t)
    (hclose : containsSub closeTag t = false) :
    injectLoop zip ((i, p) :: rest) = injectLoop zip rest ∧
    ∀ z2, injectLoop zip rest = .ok z2 → readText z2 p = some t := by
  constructor
  · cases hm : containsSub markTok t with
    | true => simp [injectLoop, hread, hm]
    | false =>
        simp only [injectLoop, hread, hm]
        rw [replaceFirstCL_of_not_contains _ hclose, writeEntry_readText_self hread]
        simp
  · intro z2 hok
    exact injectLoop_preserve_good hread (Or.inr hclose) hok

/-- C9, witness: in `noCloseDeck`, slide 2 (no closing tag) is skipped, the
loop goes on to process slide 3, and slide 2's text survives unchanged. -/
theorem c9_no_close_tag_skipped_witness :
    injectLoop noCloseDeck [(1, slidePathN 2), (2, slidePathN 3)] =
      injectLoop noCloseDeck [(2, slidePathN 3)] ∧
    readText (writeEntry noCloseDeck (slidePathN 3) (insertClose morphXml s3Xml))
        (slidePathN 2) = some noCloseXml :=
  ⟨(c9_no_close_tag_skipped noCloseDeck 1 (slidePathN 2) [(2, slidePathN 3)]
      noCloseXml (by decide) (by decide)).1,
   (c9_no_close_tag_skipped noCloseDeck 1 (slidePathN 2) [(2, slidePathN 3)]
      noCloseXml (by decide) (by decide)).2
     (writeEntry noCloseDeck (slidePathN 3) (insertClose morphXml s3Xml)) rfl⟩

/-! ### Totality of the sort-key match and catalog lookups (C10) -/

theorem stripPre_eq {q s r : Chars} (h : stripPre q s = some r) : s = q ++ r := by
  induction q generalizing s with
  | nil =>
      simp only [stripPre, Option.some.injEq] at h
      simp [h]
  | cons a ps ih =>
      cases s with
      | nil => simp [stripPre] at h
      | cons c cs =>
          cases hac : a == c with
          | false => simp [stripPre, hac] at h
          | true =>
              simp only [stripPre, hac, if_true] at h
              have hae : a = c := by simpa using hac
              subst hae
              simp [ih h]

theorem takeWhile_digits_xml {ds : Chars} (hdig : ∀ c ∈ ds, c.isDigit = true) :
    (ds ++ xmlExt).takeWhile Char.isDigit = ds := by
  induction ds with
  | nil => rfl
  | cons c cs ih =>
      have hc : c.isDigit = true := hdig c (List.mem_cons_self _ _)
      simp only [List.cons_append, List.takeWhile_cons, hc, if_true]
      rw [ih (fun x hx => hdig x (List.mem_cons_of_mem _ hx))]

theorem findSlideNum_step_no {c : Char} {cs : Chars}
    (h : hasPre slideTok (c :: cs) = false) :
    findSlideNum (c :: cs) = findSlideNum cs := by
  simp [findSlideNum, h]

theorem findSlideNum_step_skip {c : Char} {cs : Chars}
    (h : hasPre slideTok (c :: cs) = true)
    (h2 : (((c :: cs).drop slideTok.length).takeWhile Char.isDigit).isEmpty = true) :
    findSlideNum (c :: cs) = findSlideNum cs := by
  simp [findSlideNum, h, h2]

theorem findSlideNum_step_hit {c : Char} {cs : Chars}
    (h : hasPre slideTok (c :: cs) = true)
    (h2 : (((c :: cs).drop slideTok.length).takeWhile Char.isDigit).isEmpty = false) :
    findSlideNum (c :: cs) =
      some (digitsVal (((c :: cs).drop slideTok.length).takeWhile Char.isDigit) 0) := by
  simp [findSlideNum, h, h2]

/-- Scanning `ppt/slides/slideN.xml` for `/slide(\d+)/`: the first ten offsets
fail (at offset 4 the token `slide` of `slides/` is followed by `s`, not a
digit), and the match fires at the final `slide` with the digit run `ds`. -/
theorem findSlideNum_of_digits {ds : Chars} (hne : ds ≠ [])
    (hdig : ∀ c ∈ ds, c.isDigit = true) :
    findSlideNum (slideDirPre ++ (ds ++ xmlExt)) = some (digitsVal ds 0) := by
  have hemp : ds.isEmpty = false := by
    cases ds with
    | nil => exact absurd rfl hne
    | cons c cs => rfl
  have hshape : slideDirPre ++ (ds ++ xmlExt) =
      'p' :: 'p' :: 't' :: '/' :: 's' :: 'l' :: 'i' :: 'd' :: 'e' :: 's' :: '/' ::
        ('s' :: 'l' :: 'i' :: 'd' :: 'e' :: (ds ++ xmlExt)) := rfl
  have htw : (('s' :: 'l' :: 'i' :: 'd' :: 'e' :: (ds ++ xmlExt)).drop slideTok.length).takeWhile
      Char.isDigit = ds := by
    show ((ds ++ xmlExt).takeWhile Char.isDigit) = ds
    exact takeWhile_digits_xml hdig
  rw [hshape]
  rw [findSlideNum_step_no (by rfl)]
  rw [findSlideNum_step_no (by rfl)]
  rw [findSlideNum_step_no (by rfl)]
  rw [findSlideNum_step_no (by rfl)]
  rw [findSlideNum_step_skip (by rfl) (by rfl)]
  rw [findSlideNum_step_no (by rfl)]
  rw [findSlideNum_step_no (by rfl)]
  rw [findSlideNum_step_no (by rfl)]
  rw [findSlideNum_step_no (by rfl)]
  rw [findSlideNum_step_no (by rfl)]
  rw [findSlideNum_step_no (by rfl)]
  rw [findSlideNum_step_hit (by rfl) (by rw [htw]; exact hemp)]
  rw [htw]

/-- C10: the per-slide step is total on filtered inputs — the sort
comparator's regex match succeeds on every path accepted by the slide filter,
and the catalog lookup `TRANSITIONS[TRANSITION_SEQUENCE[i % length]]` is a
defined markup string for every position `i`. -/
theorem c10_total_lookups :
    (∀ p : Chars, isSlidePath p = true → (findSlideNum p).isSome = true) ∧
    (∀ i : Nat,
      (lookupTrans (TRANSITION_SEQUENCE.getD (i % TRANSITION_SEQUENCE.length)
        [])).isSome = true) := by
  constructor
  · intro p hsp
    unfold isSlidePath at hsp
    cases hstrip : stripPre slideDirPre p with
    | none => rw [hstrip] at hsp; cases hsp
    | some rest =>
        rw [hstrip] at hsp
        simp only [Bool.and_eq_true, Bool.not_eq_true', beq_iff_eq] at hsp
        obtain ⟨h1, h2⟩ := hsp
        have hsplit : rest = rest.takeWhile Char.isDigit ++ xmlExt := by
          rw [← h2]
          exact (List.takeWhile_append_dropWhile _ _).symm
        have hdig : ∀ c ∈ rest.takeWhile Char.isDigit, c.isDigit = true :=
          fun c hc => List.mem_takeWhile_imp hc
        have hne : rest.takeWhile Char.isDigit ≠ [] := by
          intro hnil
          rw [hnil] at h1
          simp at h1
        have hp : p = slideDirPre ++ (rest.takeWhile Char.isDigit ++ xmlExt) := by
          rw [← hsplit]
          exact stripPre_eq hstrip
        rw [hp, findSlideNum_of_digits hne hdig]
        rfl
  · intro i
    rcases Nat.mod_two_eq_zero_or_one i with h | h
    · rw [show TRANSITION_SEQUENCE.length = 2 from rfl, h]
      decide
    · rw [show TRANSITION_SEQUENCE.length = 2 from rfl, h]
      decide

/-- C10, witness at a concrete slide path and position. -/
theorem c10_total_lookups_witness :
    (findSlideNum ("ppt/slides/slide7.xml".toList)).isSome = true ∧
    (lookupTrans (TRANSITION_SEQUENCE.getD (5 % TRANSITION_SEQUENCE.length)
      [])).isSome = true :=
  ⟨c10_total_lookups.1 ("ppt/slides/slide7.xml".toList) (by decide),
   c10_total_lookups.2 5⟩

/-! ### Positional injection (C5) -/

/-- In a successful run over `enumFrom 1 fs'` with distinct paths, the slide
at position `j` of `fs'` (loop index `1 + j`) that passes the marker guard
ends up with exactly the fragment of `transXmlAt (1 + j)` spliced in by the
`replace` of line 78. -/
theorem injectLoop_inject_at {zip z2 : Package} {fs' : List Chars} {j : Nat}
    (hnodup : fs'.Nodup) (hj : j < fs'.length) {t : Chars}
    (hread : readText zip (fs'.get ⟨j, hj⟩) = some t)
    (hmark : containsSub markTok t = false)
    (hok : injectLoop zip (enumFrom 1 fs') = .ok z2) :
    readText z2 (fs'.get ⟨j, hj⟩) =
      some (replaceFirstCL closeTag (transXmlAt (1 + j) ++ closeTag) t) := by
  have hget : fs'.get ⟨j, hj⟩ = fs'[j] := List.get_eq_getElem fs' ⟨j, hj⟩
  rw [hget] at hread ⊢
  have hsplit : fs' = fs'.take j ++ fs'[j] :: fs'.drop (j + 1) := by
    rw [← List.drop_eq_getElem_cons hj]
    exact (List.take_append_drop j fs').symm
  have hlen : (fs'.take j).length = j := by
    rw [List.length_take]
    omega
  have henum : enumFrom 1 fs' =
      enumFrom 1 (fs'.take j) ++
        (1 + j, fs'[j]) :: enumFrom (1 + j + 1) (fs'.drop (j + 1)) := by
    conv_lhs => rw [hsplit]
    rw [enumFrom_append, hlen]
    rfl
  have hnotmem : fs'[j] ∉ fs'.take j ∧ fs'[j] ∉ fs'.drop (j + 1) := by
    have hnd2 : (fs'.take j ++ fs'[j] :: fs'.drop (j + 1)).Nodup := by
      rw [← hsplit]
      exact hnodup
    have := List.nodup_cons.1 (List.nodup_middle.1 hnd2)
    constructor
    · intro hmem
      exact this.1 (List.mem_append_left _ hmem)
    · intro hmem
      exact this.1 (List.mem_append_right _ hmem)
  rw [henum, injectLoop_append] at hok
  cases hA : injectLoop zip (enumFrom 1 (fs'.take j)) with
  | error e => rw [hA] at hok; cases hok
  | ok z1 =>
      rw [hA] at hok
      have hz1 : readText z1 fs'[j] = some t := by
        rw [injectLoop_preserve_ne (p := fs'[j]) ?hne hA]
        · exact hread
        case hne =>
          intro x hx heq
          exact hnotmem.1 (heq ▸ mem_enumFrom_snd hx)
      simp only [injectLoop, hz1, hmark, Bool.false_eq_true, if_false] at hok
      have hwr := readText_writeEntry_self z1 fs'[j]
        (replaceFirstCL closeTag (transXmlAt (1 + j) ++ closeTag) t)
      exact injectLoop_preserve_good hwr (goodSlide_replace (1 + j) t) hok

/-- C5: in every successful run on a package with distinct entry paths, the
slide at ordered position `i >= 1` that receives an injection receives the
markup of the catalog entry for `TRANSITION_SEQUENCE[i mod 2]`; in
particular positions 1, 2, 3, 4 select push, morph, push, morph — that is,
`sequence[1]`, `sequence[0]`, `sequence[1]`, `sequence[0]`. -/
theorem c5_cyclic_assignment (pkg : Package) (hnd : (zipPaths pkg).Nodup)
    (i : Nat) (hi : 1 ≤ i) (hlen : i < (slideFilesOf pkg).length)
    (t : Chars)
    (hread : readText pkg ((slideFilesOf pkg).get ⟨i, hlen⟩) = some t)
    (hmark : containsSub markTok t = false)
    (_hclose : containsSub closeTag t = true)
    (z2 : Package)
    (hok : injectLoop pkg ((enumFrom 0 (slideFilesOf pkg)).drop 1) = .ok z2) :
    readText z2 ((slideFilesOf pkg).get ⟨i, hlen⟩) =
      some (insertClose (transXmlAt i) t) ∧
    TRANSITION_SEQUENCE.getD (1 % TRANSITION_SEQUENCE.length) [] = "push".toList ∧
    TRANSITION_SEQUENCE.getD (2 % TRANSITION_SEQUENCE.length) [] = "morph".toList ∧
    TRANSITION_SEQUENCE.getD (3 % TRANSITION_SEQUENCE.length) [] = "push".toList ∧
    TRANSITION_SEQUENCE.getD (4 % TRANSITION_SEQUENCE.length) [] = "morph".toList := by
  refine ⟨?_, by decide, by decide, by decide, by decide⟩
  have hnodup : (slideFilesOf pkg).Nodup := nodup_slideFilesOf hnd
  obtain ⟨j, rfl⟩ : ∃ j, i = j + 1 := ⟨i - 1, by omega⟩
  revert hok
  revert hread
  revert hlen
  cases hcons : slideFilesOf pkg with
  | nil =>
      intro hlen
      simp only [List.length_nil] at hlen
      omega
  | cons f0 fs' =>
      intro hlen hread hok
      rw [hcons] at hnodup
      have hj : j < fs'.length := by
        have hl2 := hlen
        simp only [List.length_cons] at hl2
        omega
      have hget : (f0 :: fs').get ⟨j + 1, hlen⟩ = fs'.get ⟨j, hj⟩ := rfl
      rw [hget] at hread ⊢
      have hdrop : (enumFrom 0 (f0 :: fs')).drop 1 = enumFrom 1 fs' := rfl
      rw [hdrop] at hok
      have := injectLoop_inject_at (List.nodup_cons.1 hnodup).2 hj hread hmark hok
      rw [Nat.add_comm 1 j] at this
      exact this

/-- C5, witness at the three-slide deck, position 1. -/
theorem c5_cyclic_assignment_witness :
    readText
      [("[Content_Types].xml".toList, some ("<Types/>").toList),
       (slidePathN 1, some s1Xml),
       (slidePathN 2, some (insertClose pushXml s2Xml)),
       (slidePathN 3, some (insertClose morphXml s3Xml))]
      ((slideFilesOf deck3).get ⟨1, by decide⟩) =
      some (insertClose (transXmlAt 1) s2Xml) ∧
    TRANSITION_SEQUENCE.getD (1 % TRANSITION_SEQUENCE.length) [] = "push".toList ∧
    TRANSITION_SEQUENCE.getD (2 % TRANSITION_SEQUENCE.length) [] = "morph".toList ∧
    TRANSITION_SEQUENCE.getD (3 % TRANSITION_SEQUENCE.length) [] = "push".toList ∧
    TRANSITION_SEQUENCE.getD (4 % TRANSITION_SEQUENCE.length) [] = "morph".toList :=
  c5_cyclic_assignment deck3 (by decide) 1 (by decide) (by decide) s2Xml
    (by decide) (by decide) (by decide) _ (by rfl)

end AIPPT
